import Mathlib

/-!
# Verification of the memory-address-trace tools

Shallow embedding of the core of the `memory-address-trace-tools` repository
(an application characterizer and synthetic trace generator) together with
proofs about the embedded operations.

Embedded components:

* `AlphaTree` (`src/lib/AlphaTree.py`): the block-local binary locality tree,
  its observation walk (`ProcessAccess`/`updateTree`), its sampling walk
  (`GenerateAccess`/`SelectWord`) and counter normalization
  (`NormalizeReuseCount`).
* `BuildWorkingSet` (`src/lib/PreProcessing.py`).
* the activity-matrix bookkeeping of `GenerateApplicationProfile`
  (`src/ApplicationProfiler.py`).
* the weight validation and the generation loop of `GenerateSyntheticTrace`
  (`src/TraceGenerator.py`).

Numeric `np.float` counters and probabilities are modelled by `ℚ`; the
pseudo-random draws of the original are modelled by injectable streams
(`Nat → Bool` / `Nat → ℚ`), as only the data flow of the drawn values is
relevant to the properties proved here.
-/

namespace MemTrace

/-- `AlphaTree.GetChild` (`src/lib/AlphaTree.py:51`): `(parent*2)+2` for the
right child (`side` truthy), `(parent*2)+1` for the left child. -/
def GetChild (parent side : Nat) : Nat :=
  if side ≠ 0 then parent * 2 + 2 else parent * 2 + 1

/-- `AlphaTree.GetParent` (`src/lib/AlphaTree.py:76`): `(child - 1) / 2`
(integer division on non-negative values). -/
def GetParent (child : Nat) : Nat :=
  (child - 1) / 2

/-- `AlphaTree.GetSibling` (`src/lib/AlphaTree.py:83`):
`GetChild(GetParent(child), child % 2)`. -/
def GetSibling (child : Nat) : Nat :=
  GetChild (GetParent child) (child % 2)

/-- `AlphaTree.GetTreeLevel` (`src/lib/AlphaTree.py:92`):
`int(log(blockSize/4, 2) - 1)`.  For the power-of-two block sizes `≥ 8` at
which the source calls it this equals `log2 (blockSize / 4) - 1`. -/
def GetTreeLevel (blockSize : Nat) : Nat :=
  Nat.log2 (blockSize / 4) - 1

/-- The subset-index computation of `AlphaTree.updateTree`
(`src/lib/AlphaTree.py:129`):
`((blockSize >> 1) & memAddress) >> int(log(blockSize >> 1, 2))`. -/
def subsetID (memAddress blockSize : Nat) : Nat :=
  ((blockSize >>> 1) &&& memAddress) >>> Nat.log2 (blockSize >>> 1)

/-- The state of an `AlphaTree` (`src/lib/AlphaTree.py:12`): the scalar
configuration, the boolean "used" marks of the implicit heap-array tree
(`self.tree`), and the per-bin/per-level `[non-reuse, reuse]` counter pairs
(`self.reuseCount`, with `.1` = index 0 = non-reuse and `.2` = index 1 =
reuse). -/
structure AlphaTree where
  rootSize : Nat
  bins : Nat
  height : Nat
  tree : Nat → Bool
  reuseCount : Nat → Nat → ℚ × ℚ

/-- The freshly initialized data of `AlphaTree.__init__`
(`src/lib/AlphaTree.py:36`): `height = int(log(rootSize / 4, 2))`, all marks
cleared, all counters zero. -/
def freshAlphaTree (rootSize bins : Nat) : AlphaTree :=
  { rootSize := rootSize
    bins := bins
    height := Nat.log2 (rootSize / 4)
    tree := fun _ => false
    reuseCount := fun _ _ => (0, 0) }

/-- `AlphaTree.__init__` with its input validation (`src/lib/AlphaTree.py:33`):
`if rootSize % 2 or rootSize < 8: raise ValueError(...)`; `none` models the
raised `ValueError`. -/
def AlphaTree.mk? (rootSize bins : Nat) : Option AlphaTree :=
  if rootSize % 2 ≠ 0 ∨ rootSize < 8 then none
  else some (freshAlphaTree rootSize bins)

/-- The blockSize validation of `GenerateApplicationProfile`
(`src/ApplicationProfiler.py:79`): `if blockSize % 2 or blockSize < 8: raise`.
Returns `true` iff the `ValueError` is raised. -/
def profilerBlockSizeRejected (blockSize : Nat) : Bool :=
  blockSize % 2 != 0 || blockSize < 8

/-- Increment one component of one `[non-reuse, reuse]` counter pair:
`reuseCount[b][h][1] += 1` when `reuse = true`, `reuseCount[b][h][0] += 1`
otherwise. -/
def incrCount (f : Nat → Nat → ℚ × ℚ) (b h : Nat) (reuse : Bool) :
    Nat → Nat → ℚ × ℚ :=
  fun b' h' =>
    if b' = b ∧ h' = h then
      if reuse then ((f b h).1, (f b h).2 + 1) else ((f b h).1 + 1, (f b h).2)
    else f b' h'

/-- `AlphaTree.updateTree` (`src/lib/AlphaTree.py:114`): the recursive
observation walk.  The source stops exactly at `blockSize == 4` and, on the
power-of-two block sizes it is used with, never reaches a size `< 4`; this
embedding returns the unchanged state for sizes `≤ 4` (the source does not
terminate on sizes `< 4`, which are unreachable under every theorem below). -/
def updateTree (t : AlphaTree) (memAddress nodeID blockSize reuseDist : Nat) :
    AlphaTree :=
  if _h : blockSize ≤ 4 then t
  else
    let usedSubset := GetChild nodeID (subsetID memAddress blockSize)
    let sibling := GetSibling usedSubset
    let height := GetTreeLevel blockSize
    let t' :=
      if ¬(t.tree usedSubset || t.tree sibling) then
        -- first touch: mark used edge
        { t with tree := Function.update t.tree usedSubset true }
      else if t.tree usedSubset then
        -- indicate reuse
        { t with reuseCount := incrCount t.reuseCount reuseDist height true }
      else
        -- indicate non-reuse, record which subset was used
        { t with
          reuseCount := incrCount t.reuseCount reuseDist height false
          tree := Function.update (Function.update t.tree usedSubset true)
            sibling false }
    updateTree t' memAddress usedSubset (blockSize >>> 1) reuseDist
termination_by blockSize
decreasing_by
  simp only [Nat.shiftRight_one]
  omega

/-- `AlphaTree.ProcessAccess` (`src/lib/AlphaTree.py:100`): clamp the reuse
distance to the last bin, then run the observation walk from the root. -/
def ProcessAccess (t : AlphaTree) (memAddress reuseDist : Nat) : AlphaTree :=
  let rd := if reuseDist > t.bins - 1 then t.bins - 1 else reuseDist
  updateTree t memAddress 0 t.rootSize rd

/-- `AlphaTree.NormalizeReuseCount` (`src/lib/AlphaTree.py:241`): for every
in-range bin/level pair, take the 1-norm of the counter pair; if it is zero
set the reuse entry to `1.0`, otherwise divide both entries by it. -/
def NormalizeReuseCount (t : AlphaTree) : AlphaTree :=
  { t with
    reuseCount := fun i j =>
      if i < t.bins ∧ j < t.height then
        let p := t.reuseCount i j
        let norm := |p.1| + |p.2|
        if norm = 0 then (p.1, 1) else (p.1 / norm, p.2 / norm)
      else t.reuseCount i j }

/-- Python sequence indexing: `arr[i]` for a sequence of length `n` resolves
non-negative indices `i < n` directly and negative indices `-n ≤ i < 0` to
`i + n`; anything else raises `IndexError` (modelled by `none`). -/
def pyIdx (i : Int) (n : Nat) : Option Nat :=
  if 0 ≤ i ∧ i < (n : Int) then some i.toNat
  else if -(n : Int) ≤ i ∧ i < 0 then some (i + n).toNat
  else none

/-- `AlphaTree.SelectWord` (`src/lib/AlphaTree.py:185`): the recursive
sampling walk.  `reuseDist` is the (possibly negative) bin index with which
`self.reuseCount[reuseDist, height, :]` is read; `rand : Nat → ℚ` is the
injectable random stream (`rand k` is the `k`-th draw, uniform on `[0,1)`:
`np.random.choice(2)` is `0` iff the draw is `< 1/2`, and
`np.random.choice(2, p=[p0,p1])` is `0` iff the draw is `< p0`).  Returns
the selected word offset together with the updated tree state; `none` models
an `IndexError` on the bin index.  As with `updateTree`, the walk stops at
block size `4` and sizes `< 4` (on which the source does not terminate) are
unreachable for power-of-two root sizes. -/
def SelectWord (t : AlphaTree) (nodeID blockSize : Nat) (reuseDist : Int)
    (rand : Nat → ℚ) (k : Nat) : Option (Nat × AlphaTree) :=
  if _h : blockSize ≤ 4 then some (0, t)
  else
    let leftChild := GetChild nodeID 0
    let rightChild := GetChild nodeID 1
    let height := GetTreeLevel blockSize
    if ¬(t.tree leftChild || t.tree rightChild) then
      -- tree not previously accessed: select from uniform distribution
      let subsetIdx : Nat := if rand k < 1 / 2 then 0 else 1
      let usedSubset := GetChild nodeID subsetIdx
      let t1 := { t with tree := Function.update t.tree usedSubset true }
      (SelectWord t1 usedSubset (blockSize >>> 1) reuseDist rand (k + 1)).map
        fun r => (r.1 ||| subsetIdx * (blockSize >>> 1), r.2)
    else
      match pyIdx reuseDist t.bins with
      | none => none
      | some bin =>
        -- whether to reuse subset or not
        let p := t.reuseCount bin height
        let reuse : Nat := if rand k < p.1 then 0 else 1
        let prevSubset := if t.tree rightChild then rightChild else leftChild
        let prevIndex : Nat := if t.tree rightChild then 1 else 0
        if reuse = 0 then
          let usedSubset := GetSibling prevSubset
          let t1 := { t with
            tree := Function.update (Function.update t.tree usedSubset true)
              prevSubset false }
          let subsetIdx := (prevIndex + 1) % 2
          (SelectWord t1 usedSubset (blockSize >>> 1) reuseDist rand
              (k + 1)).map
            fun r => (r.1 ||| subsetIdx * (blockSize >>> 1), r.2)
        else
          (SelectWord t prevSubset (blockSize >>> 1) reuseDist rand
              (k + 1)).map
            fun r => (r.1 ||| prevIndex * (blockSize >>> 1), r.2)
termination_by blockSize
decreasing_by
  all_goals
    simp only [Nat.shiftRight_one]
    omega

/-- `AlphaTree.GenerateAccess` (`src/lib/AlphaTree.py:171`): clamp the bin
index from above to `bins - 1`, then run the sampling walk from the root. -/
def GenerateAccess (t : AlphaTree) (reuseDist : Int) (rand : Nat → ℚ)
    (k : Nat) : Option (Nat × AlphaTree) :=
  let rd := if reuseDist > (t.bins : Int) - 1 then (t.bins : Int) - 1
    else reuseDist
  SelectWord t 0 t.rootSize rd rand k

/-- `PreProcessing.BuildWorkingSet` (`src/lib/PreProcessing.py:114`), with a
profile reduced to its `workingSet` field.  `wsSize` is initialized to `0`
and never updated by the source loop; the loop leaves `ws` bound to the last
index whose working set beats `wsSize`.  `none` models the `NameError` raised
when `ws` was never assigned. -/
def BuildWorkingSet (workingSets : List (List Nat)) : Option (List Nat) :=
  let wsSize := 0
  let ws := (List.range workingSets.length).foldl
    (fun acc i =>
      if (workingSets.getD i []).length > wsSize then some i else acc)
    none
  ws.map fun i => workingSets.getD i []

/-- Point update of a 2×2 activity matrix cell. -/
def mUpd (m : Nat → Nat → ℚ) (i j : Nat) (v : ℚ) : Nat → Nat → ℚ :=
  fun a b => if a = i ∧ b = j then v else m a b

/-- The activity-transition counting loop of `GenerateApplicationProfile`
(`src/ApplicationProfiler.py:113`), with each trace line reduced to whether
it matches the memory-access pattern (`true` = active).  Starting from the
all-zero matrix and `previousCycle = 0`, an inactive line does
`activityMarkov[previousCycle, 0] += 1` and an active line does
`activityMarkov[previousCycle, 1] += 1`, updating `previousCycle`.  Returns
the count matrix together with the final `previousCycle`. -/
def activityCounts (trace : List Bool) : (Nat → Nat → ℚ) × Nat :=
  trace.foldl
    (fun acc active =>
      if active then (mUpd acc.1 acc.2 1 (acc.1 acc.2 1 + 1), 1)
      else (mUpd acc.1 acc.2 0 (acc.1 acc.2 0 + 1), 0))
    (fun _ _ => 0, 0)

/-- The first-cycle correction of `GenerateApplicationProfile`
(`src/ApplicationProfiler.py:189`): `activityMarkov[0][0] -= activityMarkov[0][1]`. -/
def firstCycleCorrection (m : Nat → Nat → ℚ) : Nat → Nat → ℚ :=
  mUpd m 0 0 (m 0 0 - m 0 1)

/-- Modelled from the spec: the correction as the claim states it, an
unconditional decrement of exactly one occurrence from the
inactive→inactive cell. -/
def subtractOneCorrection (m : Nat → Nat → ℚ) : Nat → Nat → ℚ :=
  mUpd m 0 0 (m 0 0 - 1)

/-- The row normalization of `GenerateApplicationProfile`
(`src/ApplicationProfiler.py:192`): each of the two rows is divided by its
1-norm.  Over `ℚ`, a division by a zero norm yields `0` where NumPy would
produce non-finite values; no theorem below evaluates such a row. -/
def normalizeRows (m : Nat → Nat → ℚ) : Nat → Nat → ℚ :=
  fun i j =>
    if i < 2 ∧ j < 2 then m i j / (|m i 0| + |m i 1|) else m i j

/-- The activity matrix produced by `GenerateApplicationProfile` for a trace:
count transitions, apply the first-cycle correction, row-normalize. -/
def profileActivityMatrix (trace : List Bool) : Nat → Nat → ℚ :=
  normalizeRows (firstCycleCorrection (activityCounts trace).1)

/-- Modelled from the spec: the number of inactive→active transitions the
counting loop sees in a trace (the implicit state before the first line is
inactive). -/
def countInactiveToActive (trace : List Bool) : Nat :=
  (trace.foldl
    (fun (acc : Nat × Nat) active =>
      if active then (if acc.2 = 0 then acc.1 + 1 else acc.1, 1)
      else (acc.1, 0))
    (0, 0)).1

/-- The weight validation of `GenerateSyntheticTrace`
(`src/TraceGenerator.py:85`): the length check is guarded by
`numProfiles > 1`; an empty list is then replaced by uniform weights
(`np.ones`), and entries at indices `0 .. numProfiles-1` are checked for
negativity.  Returns `true` iff a `ValueError` is raised. -/
def weightsValidationError (numProfiles : Nat) (weights : List ℚ) : Bool :=
  if numProfiles > 1 &&
      !(weights.length == 0 || weights.length == numProfiles) then true
  else
    let w := if weights.length == 0 then List.replicate numProfiles (1 : ℚ)
      else weights
    (List.range numProfiles).any fun i => w.getD i 0 < 0

/-- One record emitted by the generation loop of `GenerateSyntheticTrace`
(`src/TraceGenerator.py:199`): the cycle number, the access type
(`0` = load, `1` = store), the selected block address, the sampled reuse
distance, and `genArg`, the argument `reuseDist - 1` passed to
`AlphaTree.GenerateAccess` (`src/TraceGenerator.py:208`; the word-offset bits
OR-ed onto the block address are produced by that call and do not feed back
into the loop state). -/
structure GenAccess where
  cycle : Int
  accessType : Nat
  block : Nat
  reuseDist : Nat
  genArg : Int
deriving DecidableEq

/-- The mutable state of the generation loop of `GenerateSyntheticTrace`
(`src/TraceGenerator.py:149`).  `iter` counts loop iterations (one activity
draw each) and `distDraws` counts reuse-distance draws; they index the
injectable random streams. -/
structure GenState where
  lruStack : List Nat
  uniqueAddrs : Nat
  previousCycle : Nat
  cycle : Int
  accesses : Nat
  iter : Nat
  distDraws : Nat
  emitted : List GenAccess
deriving DecidableEq

/-- How a run of the generation loop ends: the access target was reached
(`finished`), the working set was exhausted on a compulsory miss
(`capacityExit`, the `exit()` at `src/TraceGenerator.py:178`), a list index
was out of range (`indexError`), or the step budget of this embedding ran
out (`outOfFuel`). -/
inductive GenOutcome where
  | finished (st : GenState)
  | capacityExit (st : GenState)
  | indexError (st : GenState)
  | outOfFuel (st : GenState)
deriving DecidableEq

/-- Whether an outcome is the `exit()` on an exhausted working set. -/
def GenOutcome.isCapacityExit : GenOutcome → Bool
  | .capacityExit _ => true
  | _ => false

/-- The emitted records of an outcome's final state. -/
def GenOutcome.emitted : GenOutcome → List GenAccess
  | .finished st => st.emitted
  | .capacityExit st => st.emitted
  | .indexError st => st.emitted
  | .outOfFuel st => st.emitted

/-- The generation loop of `GenerateSyntheticTrace`
(`src/TraceGenerator.py:155`).  The random draws are injected:
`activity k` is the `k`-th activity draw (`true` = active cycle), `dists k`
the `k`-th sampled reuse distance, and `loadRand k` the `k`-th uniform draw
compared against `loadProp[reuseDist]` to pick load vs. store.  The
distributions behind the draws (`activityMarkov`, `reusePMF`) only shape the
random values and are absorbed into the streams.  `fuel` bounds the number
of loop iterations of this embedding (the source loop is unbounded). -/
def genLoop (activity : Nat → Bool) (dists : Nat → Nat)
    (loadRand : Nat → ℚ) (loadProp : Nat → ℚ) (traceLength wsSize : Nat) :
    Nat → GenState → GenOutcome
  | 0, st => .outOfFuel st
  | fuel + 1, st =>
    if st.accesses ≥ traceLength then .finished st
    else if ¬ activity st.iter then
      -- process inactive cycle
      genLoop activity dists loadRand loadProp traceLength wsSize fuel
        { st with cycle := st.cycle + 1, previousCycle := 0,
                  iter := st.iter + 1 }
    else
      -- active cycle
      let st1 := { st with cycle := st.cycle + 1, previousCycle := 1,
                           accesses := st.accesses + 1, iter := st.iter + 1 }
      let reuseDist := dists st1.distDraws
      let st2 := { st1 with distDraws := st1.distDraws + 1 }
      if reuseDist = 0 then
        -- compulsory cache miss
        if st2.uniqueAddrs ≥ wsSize then .capacityExit st2
        else
          match st2.lruStack.get? st2.uniqueAddrs with
          | none => .indexError st2
          | some memAddress =>
            let st3 := { st2 with
              lruStack := memAddress :: st2.lruStack.erase memAddress }
            let accessType : Nat :=
              if loadRand st3.emitted.length < loadProp reuseDist then 0
              else 1
            genLoop activity dists loadRand loadProp traceLength wsSize fuel
              { st3 with emitted := st3.emitted ++
                  [⟨st3.cycle, accessType, memAddress, reuseDist,
                    (reuseDist : Int) - 1⟩] }
      else
        -- keep track of unique accesses
        let st3 := { st2 with
          uniqueAddrs := if reuseDist > st2.uniqueAddrs then
            st2.uniqueAddrs + 1 else st2.uniqueAddrs }
        match st3.lruStack.get? (reuseDist - 1) with
        | none => .indexError st3
        | some memAddress =>
          let st4 := { st3 with
            lruStack := memAddress :: st3.lruStack.erase memAddress }
          let accessType : Nat :=
            if loadRand st4.emitted.length < loadProp reuseDist then 0 else 1
          genLoop activity dists loadRand loadProp traceLength wsSize fuel
            { st4 with emitted := st4.emitted ++
                [⟨st4.cycle, accessType, memAddress, reuseDist,
                  (reuseDist : Int) - 1⟩] }

/-- The initial loop state of `GenerateSyntheticTrace`
(`src/TraceGenerator.py:149`): `previousCycle = 0`, `uniqueAddrs = 0`,
`cycle = -1`, `accesses = 0`, with `lruStack` initialized to the composite
working set. -/
def initGenState (workingSet : List Nat) : GenState :=
  { lruStack := workingSet, uniqueAddrs := 0, previousCycle := 0,
    cycle := -1, accesses := 0, iter := 0, distDraws := 0, emitted := [] }

/-! ## Basic tree-index arithmetic -/

theorem GetChild_zero (n : Nat) : GetChild n 0 = 2 * n + 1 := by
  simp [GetChild]; omega

theorem GetChild_one (n : Nat) : GetChild n 1 = 2 * n + 2 := by
  simp [GetChild]; omega

theorem GetSibling_left (n : Nat) : GetSibling (2 * n + 1) = 2 * n + 2 := by
  have h2 : (2 * n + 1) % 2 = 1 := by omega
  simp [GetSibling, GetParent, GetChild, h2]
  omega

theorem GetSibling_right (n : Nat) : GetSibling (2 * n + 2) = 2 * n + 1 := by
  have h2 : (2 * n + 2) % 2 = 0 := by omega
  simp [GetSibling, GetParent, GetChild, h2]
  omega

/-- The used child and its sibling are the two children of the node, in one
of the two possible orders. -/
theorem child_sibling_cases (n s : Nat) :
    (GetChild n s = 2 * n + 1 ∧ GetSibling (GetChild n s) = 2 * n + 2) ∨
    (GetChild n s = 2 * n + 2 ∧ GetSibling (GetChild n s) = 2 * n + 1) := by
  by_cases h : s ≠ 0
  · right
    have hc : GetChild n s = 2 * n + 2 := by simp [GetChild, h]; omega
    exact ⟨hc, by rw [hc]; exact GetSibling_right n⟩
  · left
    have hc : GetChild n s = 2 * n + 1 := by simp [GetChild, h]; omega
    exact ⟨hc, by rw [hc]; exact GetSibling_left n⟩

theorem GetTreeLevel_two_pow {k : Nat} (hk : 2 ≤ k) :
    GetTreeLevel (2 ^ k) = k - 3 := by
  have h4 : (4 : Nat) = 2 ^ 2 := by norm_num
  have hdiv : 2 ^ k / 4 = 2 ^ (k - 2) := by
    rw [h4, Nat.pow_div hk (by norm_num)]
  rw [GetTreeLevel, hdiv, Nat.log2_eq_log_two, Nat.log_pow (by norm_num)]
  omega

theorem log2_shiftRight_two_pow {k : Nat} (hk : 1 ≤ k) :
    Nat.log2 (2 ^ k >>> 1) = k - 1 := by
  have : 2 ^ k >>> 1 = 2 ^ (k - 1) := by
    rw [Nat.shiftRight_one, Nat.pow_div hk (by norm_num)]
  rw [this, Nat.log2_eq_log_two, Nat.log_pow (by norm_num)]

theorem two_pow_shiftRight {k : Nat} (hk : 1 ≤ k) :
    2 ^ k >>> 1 = 2 ^ (k - 1) := by
  rw [Nat.shiftRight_one, Nat.pow_div hk (by norm_num)]

/-! ## One-step characterization of the observation walk -/

/-- The state change `updateTree` performs at one node before recursing
(the body of `src/lib/AlphaTree.py:137-151`). -/
def updateStepState (t : AlphaTree) (memAddress nodeID blockSize reuseDist :
    Nat) : AlphaTree :=
  let usedSubset := GetChild nodeID (subsetID memAddress blockSize)
  let sibling := GetSibling usedSubset
  let height := GetTreeLevel blockSize
  if ¬(t.tree usedSubset || t.tree sibling) then
    { t with tree := Function.update t.tree usedSubset true }
  else if t.tree usedSubset then
    { t with reuseCount := incrCount t.reuseCount reuseDist height true }
  else
    { t with
      reuseCount := incrCount t.reuseCount reuseDist height false
      tree := Function.update (Function.update t.tree usedSubset true)
        sibling false }

theorem updateTree_base {t : AlphaTree} {a n bs rd : Nat} (h : bs ≤ 4) :
    updateTree t a n bs rd = t := by
  rw [updateTree]; simp [h]

theorem updateTree_step {t : AlphaTree} {a n bs rd : Nat} (h : ¬ bs ≤ 4) :
    updateTree t a n bs rd =
      updateTree (updateStepState t a n bs rd) a
        (GetChild n (subsetID a bs)) (bs >>> 1) rd := by
  rw [updateTree]
  simp [h, updateStepState]

theorem updateStepState_rootSize (t : AlphaTree) (a n bs rd : Nat) :
    (updateStepState t a n bs rd).rootSize = t.rootSize := by
  unfold updateStepState
  dsimp only
  split_ifs <;> rfl

theorem updateStepState_bins (t : AlphaTree) (a n bs rd : Nat) :
    (updateStepState t a n bs rd).bins = t.bins := by
  unfold updateStepState
  dsimp only
  split_ifs <;> rfl

theorem updateStepState_height (t : AlphaTree) (a n bs rd : Nat) :
    (updateStepState t a n bs rd).height = t.height := by
  unfold updateStepState
  dsimp only
  split_ifs <;> rfl

theorem updateStepState_tree_outside {t : AlphaTree} {a n bs rd i : Nat}
    (h1 : i ≠ 2 * n + 1) (h2 : i ≠ 2 * n + 2) :
    (updateStepState t a n bs rd).tree i = t.tree i := by
  unfold updateStepState
  dsimp only
  rcases child_sibling_cases n (subsetID a bs) with ⟨hu, hs⟩ | ⟨hu, hs⟩ <;>
    rw [hs, hu] <;> split_ifs <;>
    simp [Function.update_noteq, h1, h2]

theorem updateStepState_reuseCount_outside {t : AlphaTree} {a n bs rd : Nat}
    (b h' : Nat) (hbh : b ≠ rd ∨ h' ≠ GetTreeLevel bs) :
    (updateStepState t a n bs rd).reuseCount b h' = t.reuseCount b h' := by
  unfold updateStepState
  dsimp only
  have : ¬(b = rd ∧ h' = GetTreeLevel bs) := by tauto
  split_ifs <;> simp [incrCount, this]

/-- Field preservation along the whole walk. -/
theorem updateTree_fields (bs : Nat) : ∀ (t : AlphaTree) (a n rd : Nat),
    (updateTree t a n bs rd).rootSize = t.rootSize ∧
    (updateTree t a n bs rd).bins = t.bins ∧
    (updateTree t a n bs rd).height = t.height := by
  induction bs using Nat.strong_induction_on with
  | _ bs ih =>
    intro t a n rd
    by_cases h : bs ≤ 4
    · rw [updateTree_base h]; exact ⟨rfl, rfl, rfl⟩
    · rw [updateTree_step h]
      have hlt : bs >>> 1 < bs := by
        simp only [Nat.shiftRight_one]; omega
      obtain ⟨h1, h2, h3⟩ := ih (bs >>> 1) hlt (updateStepState t a n bs rd)
        a (GetChild n (subsetID a bs)) rd
      exact ⟨h1.trans (updateStepState_rootSize ..),
        h2.trans (updateStepState_bins ..),
        h3.trans (updateStepState_height ..)⟩

/-- The walk started at a node never changes marks at indices below the
node's children. -/
theorem updateTree_tree_lower (bs : Nat) :
    ∀ (t : AlphaTree) (a n rd i : Nat), i < 2 * n + 1 →
      (updateTree t a n bs rd).tree i = t.tree i := by
  induction bs using Nat.strong_induction_on with
  | _ bs ih =>
    intro t a n rd i hi
    by_cases h : bs ≤ 4
    · rw [updateTree_base h]
    · rw [updateTree_step h]
      have hlt : bs >>> 1 < bs := by
        simp only [Nat.shiftRight_one]; omega
      have hchild : GetChild n (subsetID a bs) = 2 * n + 1 ∨
          GetChild n (subsetID a bs) = 2 * n + 2 := by
        rcases child_sibling_cases n (subsetID a bs) with ⟨hu, _⟩ | ⟨hu, _⟩ <;>
          [exact Or.inl hu; exact Or.inr hu]
      have hi' : i < 2 * GetChild n (subsetID a bs) + 1 := by
        rcases hchild with hc | hc <;> omega
      rw [ih (bs >>> 1) hlt _ a _ rd i hi']
      exact updateStepState_tree_outside (by omega) (by omega)

theorem GetTreeLevel_shiftRight_le (bs : Nat) :
    GetTreeLevel (bs >>> 1) ≤ GetTreeLevel bs := by
  unfold GetTreeLevel
  have h1 : bs >>> 1 / 4 ≤ bs / 4 := by
    apply Nat.div_le_div_right
    simp only [Nat.shiftRight_one]
    omega
  have h2 : Nat.log2 (bs >>> 1 / 4) ≤ Nat.log2 (bs / 4) := by
    rw [Nat.log2_eq_log_two, Nat.log2_eq_log_two]
    exact Nat.log_mono_right h1
  omega

/-- The walk started at a node of block size `bs` changes counters only in
the bin it was called with and only at levels at most `GetTreeLevel bs`. -/
theorem updateTree_reuseCount_outside (bs : Nat) :
    ∀ (t : AlphaTree) (a n rd b h' : Nat),
      (b ≠ rd ∨ GetTreeLevel bs < h') →
      (updateTree t a n bs rd).reuseCount b h' = t.reuseCount b h' := by
  induction bs using Nat.strong_induction_on with
  | _ bs ih =>
    intro t a n rd b h' hbh
    by_cases h : bs ≤ 4
    · rw [updateTree_base h]
    · rw [updateTree_step h]
      have hlt : bs >>> 1 < bs := by
        simp only [Nat.shiftRight_one]; omega
      have hbh2 : b ≠ rd ∨ GetTreeLevel (bs >>> 1) < h' := by
        rcases hbh with hb | hb
        · exact Or.inl hb
        · exact Or.inr (lt_of_le_of_lt (GetTreeLevel_shiftRight_le bs) hb)
      rw [ih (bs >>> 1) hlt _ a _ rd b h' hbh2]
      apply updateStepState_reuseCount_outside
      rcases hbh with hb | hb
      · exact Or.inl hb
      · exact Or.inr (by omega)

/-! ## First touch and repeated access -/

/-- No mark is set anywhere in the subtree of `node` (for a walk of block
size `bs`). -/
def subtreeUnmarked (f : Nat → Bool) (node bs : Nat) : Prop :=
  if bs ≤ 4 then True
  else
    f (2 * node + 1) = false ∧ f (2 * node + 2) = false ∧
    subtreeUnmarked f (2 * node + 1) (bs >>> 1) ∧
    subtreeUnmarked f (2 * node + 2) (bs >>> 1)
termination_by bs
decreasing_by
  all_goals
    simp only [Nat.shiftRight_one]
    omega

/-- Along the path that the address selects from `node` downwards, every
referenced child is marked. -/
def pathMarked (f : Nat → Bool) (a node bs : Nat) : Prop :=
  if bs ≤ 4 then True
  else
    f (GetChild node (subsetID a bs)) = true ∧
    pathMarked f a (GetChild node (subsetID a bs)) (bs >>> 1)
termination_by bs
decreasing_by
  simp only [Nat.shiftRight_one]
  omega

theorem subtreeUnmarked_base {f : Nat → Bool} {n bs : Nat} (h : bs ≤ 4) :
    subtreeUnmarked f n bs := by
  rw [subtreeUnmarked]; simp [h]

theorem subtreeUnmarked_step {f : Nat → Bool} {n bs : Nat} (h : ¬ bs ≤ 4) :
    subtreeUnmarked f n bs ↔
      f (2 * n + 1) = false ∧ f (2 * n + 2) = false ∧
      subtreeUnmarked f (2 * n + 1) (bs >>> 1) ∧
      subtreeUnmarked f (2 * n + 2) (bs >>> 1) := by
  conv_lhs => rw [subtreeUnmarked]
  simp [h]

theorem pathMarked_base {f : Nat → Bool} {a n bs : Nat} (h : bs ≤ 4) :
    pathMarked f a n bs := by
  rw [pathMarked]; simp [h]

theorem pathMarked_step {f : Nat → Bool} {a n bs : Nat} (h : ¬ bs ≤ 4) :
    pathMarked f a n bs ↔
      f (GetChild n (subsetID a bs)) = true ∧
      pathMarked f a (GetChild n (subsetID a bs)) (bs >>> 1) := by
  conv_lhs => rw [pathMarked]
  simp [h]

/-- `subtreeUnmarked` only reads marks strictly above the node's index. -/
theorem subtreeUnmarked_congr (bs : Nat) :
    ∀ (f f' : Nat → Bool) (n : Nat), (∀ i, n < i → f' i = f i) →
      subtreeUnmarked f n bs → subtreeUnmarked f' n bs := by
  induction bs using Nat.strong_induction_on with
  | _ bs ih =>
    intro f f' n hagree hsub
    by_cases h : bs ≤ 4
    · exact subtreeUnmarked_base h
    · rw [subtreeUnmarked_step h]
      rw [subtreeUnmarked_step h] at hsub
      have hlt : bs >>> 1 < bs := by
        simp only [Nat.shiftRight_one]; omega
      refine ⟨?_, ?_, ?_, ?_⟩
      · rw [hagree _ (by omega)]; exact hsub.1
      · rw [hagree _ (by omega)]; exact hsub.2.1
      · exact ih (bs >>> 1) hlt f f' (2 * n + 1)
          (fun i hi => hagree i (by omega)) hsub.2.2.1
      · exact ih (bs >>> 1) hlt f f' (2 * n + 2)
          (fun i hi => hagree i (by omega)) hsub.2.2.2

theorem subtreeUnmarked_fresh (bs : Nat) :
    ∀ n : Nat, subtreeUnmarked (fun _ => false) n bs := by
  induction bs using Nat.strong_induction_on with
  | _ bs ih =>
    intro n
    by_cases h : bs ≤ 4
    · exact subtreeUnmarked_base h
    · rw [subtreeUnmarked_step h]
      have hlt : bs >>> 1 < bs := by
        simp only [Nat.shiftRight_one]; omega
      exact ⟨rfl, rfl, ih (bs >>> 1) hlt _, ih (bs >>> 1) hlt _⟩

/-- `pathMarked` only reads marks strictly above the node's index. -/
theorem pathMarked_congr (bs : Nat) :
    ∀ (f f' : Nat → Bool) (a n : Nat), (∀ i, n < i → f' i = f i) →
      pathMarked f a n bs → pathMarked f' a n bs := by
  induction bs using Nat.strong_induction_on with
  | _ bs ih =>
    intro f f' a n hagree hpath
    by_cases h : bs ≤ 4
    · exact pathMarked_base h
    · rw [pathMarked_step h]
      rw [pathMarked_step h] at hpath
      have hlt : bs >>> 1 < bs := by
        simp only [Nat.shiftRight_one]; omega
      have hchild : n < GetChild n (subsetID a bs) := by
        rcases child_sibling_cases n (subsetID a bs) with ⟨hu, _⟩ | ⟨hu, _⟩ <;>
          omega
      refine ⟨?_, ?_⟩
      · rw [hagree _ hchild]; exact hpath.1
      · exact ih (bs >>> 1) hlt f f' a _
          (fun i hi => hagree i (by omega)) hpath.2

/-- First touch of a fully unmarked subtree: the walk changes no counter and
leaves the referenced path marked. -/
theorem updateTree_firstTouch (bs : Nat) :
    ∀ (t : AlphaTree) (a n rd : Nat), subtreeUnmarked t.tree n bs →
      (updateTree t a n bs rd).reuseCount = t.reuseCount ∧
      pathMarked (updateTree t a n bs rd).tree a n bs := by
  induction bs using Nat.strong_induction_on with
  | _ bs ih =>
    intro t a n rd hsub
    by_cases h : bs ≤ 4
    · rw [updateTree_base h]
      exact ⟨rfl, pathMarked_base h⟩
    · have hlt : bs >>> 1 < bs := by
        simp only [Nat.shiftRight_one]; omega
      rw [subtreeUnmarked_step h] at hsub
      obtain ⟨hL, hR, hsubL, hsubR⟩ := hsub
      set u := GetChild n (subsetID a bs) with hu_def
      have hcases := child_sibling_cases n (subsetID a bs)
      have hu_false : t.tree u = false := by
        rcases hcases with ⟨hu, _⟩ | ⟨hu, _⟩ <;> rw [← hu_def] at hu <;>
          rw [hu] <;> assumption
      have hs_false : t.tree (GetSibling u) = false := by
        rcases hcases with ⟨hu, hs⟩ | ⟨hu, hs⟩ <;> rw [← hu_def] at hu hs <;>
          rw [hs] <;> assumption
      have hstep : updateStepState t a n bs rd =
          { t with tree := Function.update t.tree u true } := by
        unfold updateStepState
        dsimp only
        rw [← hu_def, hu_false, hs_false]
        simp
      have hsub_u : subtreeUnmarked t.tree u (bs >>> 1) := by
        rcases hcases with ⟨hu, _⟩ | ⟨hu, _⟩ <;> rw [← hu_def] at hu <;>
          rw [hu] <;> assumption
      have hsub_u' : subtreeUnmarked
          (Function.update t.tree u true) u (bs >>> 1) := by
        refine subtreeUnmarked_congr (bs >>> 1) t.tree _ u ?_ hsub_u
        intro i hi
        exact Function.update_noteq (by omega) _ _
      rw [updateTree_step h, ← hu_def, hstep]
      obtain ⟨hcount, hpath⟩ := ih (bs >>> 1) hlt
        { t with tree := Function.update t.tree u true } a u rd hsub_u'
      refine ⟨hcount, ?_⟩
      rw [pathMarked_step h, ← hu_def]
      constructor
      · rw [updateTree_tree_lower (bs >>> 1) _ a u rd u (by omega)]
        simp
      · exact hpath

/-- Walking an already-marked path: marks are unchanged and exactly the
reuse counters of the called bin at levels `≤ k - 3` are incremented. -/
theorem updateTree_pathReuse (k : Nat) :
    ∀ (t : AlphaTree) (a n rd : Nat), pathMarked t.tree a n (2 ^ k) →
      (updateTree t a n (2 ^ k) rd).tree = t.tree ∧
      ∀ b h', (updateTree t a n (2 ^ k) rd).reuseCount b h' =
        if b = rd ∧ h' + 3 ≤ k then
          ((t.reuseCount b h').1, (t.reuseCount b h').2 + 1)
        else t.reuseCount b h' := by
  induction k using Nat.strong_induction_on with
  | _ k ih =>
    intro t a n rd hpath
    by_cases h : 2 ^ k ≤ 4
    · rw [updateTree_base h]
      refine ⟨rfl, fun b h' => ?_⟩
      have hk2 : k ≤ 2 := by
        by_contra hk
        have : 2 ^ 3 ≤ 2 ^ k := Nat.pow_le_pow_right (by norm_num) (by omega)
        omega
      rw [if_neg (by omega)]
    · have hk3 : 3 ≤ k := by
        by_contra hk
        have : 2 ^ k ≤ 2 ^ 2 := Nat.pow_le_pow_right (by norm_num) (by omega)
        omega
      rw [pathMarked_step h] at hpath
      set u := GetChild n (subsetID a (2 ^ k)) with hu_def
      obtain ⟨hmark, hpath'⟩ := hpath
      have hstep : updateStepState t a n (2 ^ k) rd =
          { t with reuseCount :=
              incrCount t.reuseCount rd (GetTreeLevel (2 ^ k)) true } := by
        unfold updateStepState
        dsimp only
        rw [← hu_def, hmark]
        simp
      have hshift : (2 : Nat) ^ k >>> 1 = 2 ^ (k - 1) :=
        two_pow_shiftRight (by omega)
      have hpath'' : pathMarked
          ({ t with reuseCount :=
              incrCount t.reuseCount rd (GetTreeLevel (2 ^ k)) true }).tree
          a u (2 ^ (k - 1)) := by
        rw [← hshift]; exact hpath'
      rw [updateTree_step h, ← hu_def, hstep, hshift]
      obtain ⟨htree, hcount⟩ := ih (k - 1) (by omega) _ a u rd hpath''
      have hlevel : GetTreeLevel (2 ^ k) = k - 3 :=
        GetTreeLevel_two_pow (by omega)
      refine ⟨htree, fun b h' => ?_⟩
      rw [hcount b h']
      have hincr : ∀ b0 h0,
          incrCount t.reuseCount rd (GetTreeLevel (2 ^ k)) true b0 h0 =
            if b0 = rd ∧ h0 = GetTreeLevel (2 ^ k) then
              ((t.reuseCount rd (GetTreeLevel (2 ^ k))).1,
               (t.reuseCount rd (GetTreeLevel (2 ^ k))).2 + 1)
            else t.reuseCount b0 h0 := by
        intro b0 h0
        unfold incrCount
        split_ifs <;> simp_all
      dsimp only
      rw [hincr b h']
      by_cases hb : b = rd
      · by_cases hh1 : h' + 3 ≤ k - 1
        · have hc1 : b = rd ∧ h' + 3 ≤ k - 1 := ⟨hb, hh1⟩
          have hc2 : b = rd ∧ h' + 3 ≤ k := ⟨hb, by omega⟩
          have hc3 : ¬(b = rd ∧ h' = GetTreeLevel (2 ^ k)) := by
            rintro ⟨_, hx⟩
            rw [hlevel] at hx
            omega
          rw [if_pos hc1, if_pos hc2, if_neg hc3]
        · by_cases hh2 : h' + 3 ≤ k
          · have hh3 : h' = k - 3 := by omega
            have hc1 : ¬(b = rd ∧ h' + 3 ≤ k - 1) := by
              rintro ⟨_, hx⟩
              omega
            have hc2 : b = rd ∧ h' = GetTreeLevel (2 ^ k) := ⟨hb, by omega⟩
            have hc3 : b = rd ∧ h' + 3 ≤ k := ⟨hb, hh2⟩
            rw [if_neg hc1, if_pos hc2, if_pos hc3, hlevel, hb, hh3]
          · have hc1 : ¬(b = rd ∧ h' + 3 ≤ k - 1) := by
              rintro ⟨_, hx⟩
              omega
            have hc2 : ¬(b = rd ∧ h' = GetTreeLevel (2 ^ k)) := by
              rintro ⟨_, hx⟩
              rw [hlevel] at hx
              omega
            have hc3 : ¬(b = rd ∧ h' + 3 ≤ k) := by
              rintro ⟨_, hx⟩
              omega
            rw [if_neg hc1, if_neg hc2, if_neg hc3]
      · have hc : ∀ p : Prop, ¬(b = rd ∧ p) := by
          rintro p ⟨hx, _⟩
          exact hb hx
        rw [if_neg (hc _), if_neg (hc _), if_neg (hc _)]

theorem freshAlphaTree_rootSize (r b : Nat) :
    (freshAlphaTree r b).rootSize = r := rfl

theorem freshAlphaTree_bins (r b : Nat) : (freshAlphaTree r b).bins = b := rfl

theorem freshAlphaTree_height (r b : Nat) :
    (freshAlphaTree r b).height = Nat.log2 (r / 4) := rfl

/-- At a node of block size `2 ^ k` the observation walk performs exactly one
of the three cases on the marks of the referenced child and its sibling,
with the stated effect on that level's counters and marks. -/
theorem updateTree_level_effect (t : AlphaTree) (a n rd k : Nat)
    (hk : 3 ≤ k) :
    ((t.tree (GetChild n (subsetID a (2 ^ k))) = false ∧
      t.tree (GetSibling (GetChild n (subsetID a (2 ^ k)))) = false) →
      (∀ b, (updateTree t a n (2 ^ k) rd).reuseCount b (k - 3) =
        t.reuseCount b (k - 3)) ∧
      (updateTree t a n (2 ^ k) rd).tree
        (GetChild n (subsetID a (2 ^ k))) = true) ∧
    (t.tree (GetChild n (subsetID a (2 ^ k))) = true →
      (updateTree t a n (2 ^ k) rd).reuseCount rd (k - 3) =
        ((t.reuseCount rd (k - 3)).1, (t.reuseCount rd (k - 3)).2 + 1) ∧
      (∀ b, b ≠ rd → (updateTree t a n (2 ^ k) rd).reuseCount b (k - 3) =
        t.reuseCount b (k - 3)) ∧
      (updateTree t a n (2 ^ k) rd).tree
        (GetChild n (subsetID a (2 ^ k))) = true ∧
      (updateTree t a n (2 ^ k) rd).tree
          (GetSibling (GetChild n (subsetID a (2 ^ k)))) =
        t.tree (GetSibling (GetChild n (subsetID a (2 ^ k))))) ∧
    ((t.tree (GetChild n (subsetID a (2 ^ k))) = false ∧
      t.tree (GetSibling (GetChild n (subsetID a (2 ^ k)))) = true) →
      (updateTree t a n (2 ^ k) rd).reuseCount rd (k - 3) =
        ((t.reuseCount rd (k - 3)).1 + 1, (t.reuseCount rd (k - 3)).2) ∧
      (∀ b, b ≠ rd → (updateTree t a n (2 ^ k) rd).reuseCount b (k - 3) =
        t.reuseCount b (k - 3)) ∧
      (updateTree t a n (2 ^ k) rd).tree
        (GetChild n (subsetID a (2 ^ k))) = true ∧
      (updateTree t a n (2 ^ k) rd).tree
        (GetSibling (GetChild n (subsetID a (2 ^ k)))) = false) := by
  have h8 : (8 : Nat) ≤ 2 ^ k := by
    calc (8 : Nat) = 2 ^ 3 := by norm_num
    _ ≤ 2 ^ k := Nat.pow_le_pow_right (by norm_num) hk
  have h4 : ¬ 2 ^ k ≤ 4 := by omega
  have hlevel : GetTreeLevel (2 ^ k) = k - 3 := GetTreeLevel_two_pow (by omega)
  set u := GetChild n (subsetID a (2 ^ k)) with hu_def
  set s := GetSibling u with hs_def
  have hus : (u = 2 * n + 1 ∧ s = 2 * n + 2) ∨
      (u = 2 * n + 2 ∧ s = 2 * n + 1) := by
    rcases child_sibling_cases n (subsetID a (2 ^ k)) with ⟨h1, h2⟩ | ⟨h1, h2⟩
    · exact Or.inl ⟨h1, by rw [hs_def, hu_def]; exact h2⟩
    · exact Or.inr ⟨h1, by rw [hs_def, hu_def]; exact h2⟩
  have hune : u ≠ s := by rcases hus with ⟨h1, h2⟩ | ⟨h1, h2⟩ <;> omega
  -- the recursive call below this node touches neither this level's counters
  -- nor the marks at the two children of this node
  have hrecC : ∀ (t1 : AlphaTree) (b : Nat),
      (updateTree t1 a u (2 ^ k >>> 1) rd).reuseCount b (k - 3) =
        t1.reuseCount b (k - 3) := by
    intro t1 b
    rw [two_pow_shiftRight (by omega)]
    by_cases hk3 : k = 3
    · subst hk3
      rw [updateTree_base (by norm_num)]
    · apply updateTree_reuseCount_outside
      right
      rw [GetTreeLevel_two_pow (by omega)]
      omega
  have hrecT : ∀ (t1 : AlphaTree) (i : Nat), i < 2 * u + 1 →
      (updateTree t1 a u (2 ^ k >>> 1) rd).tree i = t1.tree i :=
    fun t1 i hi => updateTree_tree_lower (2 ^ k >>> 1) t1 a u rd i hi
  have hults : u < 2 * u + 1 := by omega
  have hslts : s < 2 * u + 1 := by
    rcases hus with ⟨h1, h2⟩ | ⟨h1, h2⟩ <;> omega
  refine ⟨?_, ?_, ?_⟩
  · rintro ⟨hu_false, hs_false⟩
    have hstep : updateStepState t a n (2 ^ k) rd =
        { t with tree := Function.update t.tree u true } := by
      unfold updateStepState
      dsimp only
      rw [← hu_def, ← hs_def, hu_false, hs_false]
      simp
    rw [updateTree_step h4, ← hu_def, hstep]
    constructor
    · intro b
      rw [hrecC _ b]
    · rw [hrecT _ u hults]
      simp
  · intro hu_true
    have hstep : updateStepState t a n (2 ^ k) rd =
        { t with reuseCount :=
            incrCount t.reuseCount rd (GetTreeLevel (2 ^ k)) true } := by
      unfold updateStepState
      dsimp only
      rw [← hu_def, hu_true]
      simp
    rw [updateTree_step h4, ← hu_def, hstep]
    refine ⟨?_, ?_, ?_, ?_⟩
    · rw [hrecC _ rd]
      simp [incrCount, hlevel]
    · intro b hb
      rw [hrecC _ b]
      simp only [incrCount, hlevel]
      rw [if_neg (by rintro ⟨hx, _⟩; exact hb hx)]
    · rw [hrecT _ u hults]
      exact hu_true
    · rw [hrecT _ s hslts]
  · rintro ⟨hu_false, hs_true⟩
    have hstep : updateStepState t a n (2 ^ k) rd =
        { t with
          reuseCount := incrCount t.reuseCount rd (GetTreeLevel (2 ^ k)) false
          tree := Function.update (Function.update t.tree u true) s false } :=
        by
      unfold updateStepState
      dsimp only
      rw [← hu_def, ← hs_def, hu_false, hs_true]
      simp
    rw [updateTree_step h4, ← hu_def, hstep]
    refine ⟨?_, ?_, ?_, ?_⟩
    · rw [hrecC _ rd]
      simp [incrCount, hlevel]
    · intro b hb
      rw [hrecC _ b]
      simp only [incrCount, hlevel]
      rw [if_neg (by rintro ⟨hx, _⟩; exact hb hx)]
    · rw [hrecT _ u hults]
      dsimp only
      rw [Function.update_noteq hune, Function.update_same]
    · rw [hrecT _ s hslts]
      dsimp only
      rw [Function.update_same]

/-- C1: at every node of the observation walk exactly one of three cases
applies — first touch (mark the referenced child, change no counter at that
level), reuse (increment that level/bin's reuse counter), or non-reuse
(increment that level/bin's non-reuse counter and flip the mark to the
referenced child) — and consequently processing the identical address twice
on a freshly constructed tree leaves, for the clamped bin, reuse count 1 and
non-reuse count 0 at every level. -/
theorem claim_C1_observe_three_cases_and_double_access
    (t : AlphaTree) (a n rd k : Nat) (m bins a2 rd2 : Nat)
    (hk : 3 ≤ k) (hm : 3 ≤ m) (hbins1 : 1 ≤ bins) :
    (((t.tree (GetChild n (subsetID a (2 ^ k))) = false ∧
      t.tree (GetSibling (GetChild n (subsetID a (2 ^ k)))) = false) →
      (∀ b, (updateTree t a n (2 ^ k) rd).reuseCount b (k - 3) =
        t.reuseCount b (k - 3)) ∧
      (updateTree t a n (2 ^ k) rd).tree
        (GetChild n (subsetID a (2 ^ k))) = true) ∧
    (t.tree (GetChild n (subsetID a (2 ^ k))) = true →
      (updateTree t a n (2 ^ k) rd).reuseCount rd (k - 3) =
        ((t.reuseCount rd (k - 3)).1, (t.reuseCount rd (k - 3)).2 + 1) ∧
      (∀ b, b ≠ rd → (updateTree t a n (2 ^ k) rd).reuseCount b (k - 3) =
        t.reuseCount b (k - 3)) ∧
      (updateTree t a n (2 ^ k) rd).tree
        (GetChild n (subsetID a (2 ^ k))) = true ∧
      (updateTree t a n (2 ^ k) rd).tree
          (GetSibling (GetChild n (subsetID a (2 ^ k)))) =
        t.tree (GetSibling (GetChild n (subsetID a (2 ^ k))))) ∧
    ((t.tree (GetChild n (subsetID a (2 ^ k))) = false ∧
      t.tree (GetSibling (GetChild n (subsetID a (2 ^ k)))) = true) →
      (updateTree t a n (2 ^ k) rd).reuseCount rd (k - 3) =
        ((t.reuseCount rd (k - 3)).1 + 1, (t.reuseCount rd (k - 3)).2) ∧
      (∀ b, b ≠ rd → (updateTree t a n (2 ^ k) rd).reuseCount b (k - 3) =
        t.reuseCount b (k - 3)) ∧
      (updateTree t a n (2 ^ k) rd).tree
        (GetChild n (subsetID a (2 ^ k))) = true ∧
      (updateTree t a n (2 ^ k) rd).tree
        (GetSibling (GetChild n (subsetID a (2 ^ k)))) = false)) ∧
    (∀ h', h' < (freshAlphaTree (2 ^ m) bins).height →
      (ProcessAccess (ProcessAccess (freshAlphaTree (2 ^ m) bins) a2 rd2)
          a2 rd2).reuseCount
        (if rd2 > bins - 1 then bins - 1 else rd2) h' = (0, 1)) := by
  constructor
  · exact updateTree_level_effect t a n rd k hk
  · intro h' hh'
    have hheight : (freshAlphaTree (2 ^ m) bins).height = m - 2 := by
      rw [freshAlphaTree_height]
      have hdiv : 2 ^ m / 4 = 2 ^ (m - 2) := by
        rw [show (4 : Nat) = 2 ^ 2 by norm_num,
          Nat.pow_div (by omega) (by norm_num)]
      rw [hdiv, Nat.log2_eq_log_two, Nat.log_pow (by norm_num)]
    rw [hheight] at hh'
    show (ProcessAccess (updateTree (freshAlphaTree (2 ^ m) bins) a2 0
        (2 ^ m) (if rd2 > bins - 1 then bins - 1 else rd2)) a2 rd2).reuseCount
      (if rd2 > bins - 1 then bins - 1 else rd2) h' = (0, 1)
    set bin := if rd2 > bins - 1 then bins - 1 else rd2 with hbin
    obtain ⟨hcnt1, hpath1⟩ := updateTree_firstTouch (2 ^ m)
      (freshAlphaTree (2 ^ m) bins) a2 0 bin
      (subtreeUnmarked_fresh (2 ^ m) 0)
    set t1 := updateTree (freshAlphaTree (2 ^ m) bins) a2 0 (2 ^ m) bin
      with ht1
    obtain ⟨hroot1, hbins1, -⟩ :=
      updateTree_fields (2 ^ m) (freshAlphaTree (2 ^ m) bins) a2 0 bin
    have hPA : ProcessAccess t1 a2 rd2 = updateTree t1 a2 0 (2 ^ m) bin := by
      unfold ProcessAccess
      rw [← ht1] at hroot1 hbins1
      rw [hroot1, hbins1, freshAlphaTree_rootSize, freshAlphaTree_bins,
        ← hbin]
    rw [hPA]
    obtain ⟨-, hcnt2⟩ := updateTree_pathReuse m t1 a2 0 bin hpath1
    rw [hcnt2 bin h', if_pos ⟨rfl, by omega⟩, hcnt1]
    show ((0 : ℚ), (0 : ℚ) + 1) = ((0 : ℚ), (1 : ℚ))
    norm_num

/-- Witness for C1 at the default configuration: root size `512 = 2 ^ 9`,
3 bins, address `0b111111111`, reuse distance 0, checked at level 0. -/
theorem claim_C1_witness :
    (3 ≤ 9 ∧ 3 ≤ 9 ∧ 1 ≤ 3) ∧
    ((((freshAlphaTree 512 3).tree (GetChild 0 (subsetID 511 (2 ^ 9))) =
        false ∧
      (freshAlphaTree 512 3).tree
        (GetSibling (GetChild 0 (subsetID 511 (2 ^ 9)))) = false) →
      (∀ b, (updateTree (freshAlphaTree 512 3) 511 0 (2 ^ 9) 0).reuseCount b
          (9 - 3) = (freshAlphaTree 512 3).reuseCount b (9 - 3)) ∧
      (updateTree (freshAlphaTree 512 3) 511 0 (2 ^ 9) 0).tree
        (GetChild 0 (subsetID 511 (2 ^ 9))) = true) ∧
    ((freshAlphaTree 512 3).tree (GetChild 0 (subsetID 511 (2 ^ 9))) =
        true →
      (updateTree (freshAlphaTree 512 3) 511 0 (2 ^ 9) 0).reuseCount 0
          (9 - 3) =
        (((freshAlphaTree 512 3).reuseCount 0 (9 - 3)).1,
         ((freshAlphaTree 512 3).reuseCount 0 (9 - 3)).2 + 1) ∧
      (∀ b, b ≠ 0 →
        (updateTree (freshAlphaTree 512 3) 511 0 (2 ^ 9) 0).reuseCount b
          (9 - 3) = (freshAlphaTree 512 3).reuseCount b (9 - 3)) ∧
      (updateTree (freshAlphaTree 512 3) 511 0 (2 ^ 9) 0).tree
        (GetChild 0 (subsetID 511 (2 ^ 9))) = true ∧
      (updateTree (freshAlphaTree 512 3) 511 0 (2 ^ 9) 0).tree
          (GetSibling (GetChild 0 (subsetID 511 (2 ^ 9)))) =
        (freshAlphaTree 512 3).tree
          (GetSibling (GetChild 0 (subsetID 511 (2 ^ 9))))) ∧
    (((freshAlphaTree 512 3).tree (GetChild 0 (subsetID 511 (2 ^ 9))) =
        false ∧
      (freshAlphaTree 512 3).tree
        (GetSibling (GetChild 0 (subsetID 511 (2 ^ 9)))) = true) →
      (updateTree (freshAlphaTree 512 3) 511 0 (2 ^ 9) 0).reuseCount 0
          (9 - 3) =
        (((freshAlphaTree 512 3).reuseCount 0 (9 - 3)).1 + 1,
         ((freshAlphaTree 512 3).reuseCount 0 (9 - 3)).2) ∧
      (∀ b, b ≠ 0 →
        (updateTree (freshAlphaTree 512 3) 511 0 (2 ^ 9) 0).reuseCount b
          (9 - 3) = (freshAlphaTree 512 3).reuseCount b (9 - 3)) ∧
      (updateTree (freshAlphaTree 512 3) 511 0 (2 ^ 9) 0).tree
        (GetChild 0 (subsetID 511 (2 ^ 9))) = true ∧
      (updateTree (freshAlphaTree 512 3) 511 0 (2 ^ 9) 0).tree
        (GetSibling (GetChild 0 (subsetID 511 (2 ^ 9)))) = false)) ∧
    (∀ h', h' < (freshAlphaTree (2 ^ 9) 3).height →
      (ProcessAccess (ProcessAccess (freshAlphaTree (2 ^ 9) 3) 511 0)
          511 0).reuseCount (if 0 > 3 - 1 then 3 - 1 else 0) h' = (0, 1)) :=
  ⟨⟨by norm_num, by norm_num, by norm_num⟩,
    claim_C1_observe_three_cases_and_double_access (freshAlphaTree 512 3)
      511 0 0 9 9 3 511 0 (by norm_num) (by norm_num) (by norm_num)⟩

/-! ## The sibling-mark invariant -/

/-- At most one of the two children of any node is marked used. -/
def SiblingInv (f : Nat → Bool) : Prop :=
  ∀ n : Nat, ¬(f (2 * n + 1) = true ∧ f (2 * n + 2) = true)

/-- Marking one child of a node whose two children are both unmarked
preserves the invariant. -/
theorem SiblingInv_update_single (f : Nat → Bool) (n u : Nat)
    (hu : u = 2 * n + 1 ∨ u = 2 * n + 2)
    (hL : f (2 * n + 1) = false) (hR : f (2 * n + 2) = false)
    (hinv : SiblingInv f) : SiblingInv (Function.update f u true) := by
  intro p hp
  by_cases hpn : p = n
  · rw [hpn] at hp
    rcases hu with hu | hu <;> subst hu
    · have h2 := hp.2
      rw [Function.update_noteq (show 2 * n + 2 ≠ 2 * n + 1 by omega)] at h2
      rw [h2] at hR
      exact absurd hR (by simp)
    · have h2 := hp.1
      rw [Function.update_noteq (show 2 * n + 1 ≠ 2 * n + 2 by omega)] at h2
      rw [h2] at hL
      exact absurd hL (by simp)
  · have hd1 : 2 * p + 1 ≠ u := by rcases hu with hu | hu <;> omega
    have hd2 : 2 * p + 2 ≠ u := by rcases hu with hu | hu <;> omega
    rw [Function.update_noteq hd1, Function.update_noteq hd2] at hp
    exact hinv p hp

/-- Flipping the mark of a sibling pair (referenced child set, sibling
cleared) preserves the invariant. -/
theorem SiblingInv_update_pair (f : Nat → Bool) (n u s : Nat)
    (hus : (u = 2 * n + 1 ∧ s = 2 * n + 2) ∨
      (u = 2 * n + 2 ∧ s = 2 * n + 1))
    (hinv : SiblingInv f) :
    SiblingInv (Function.update (Function.update f u true) s false) := by
  intro p hp
  by_cases hpn : p = n
  · rw [hpn] at hp
    rcases hus with ⟨hu, hs⟩ | ⟨hu, hs⟩ <;> subst hu <;> subst hs
    · have h2 := hp.2
      rw [Function.update_same] at h2
      exact absurd h2 (by simp)
    · have h2 := hp.1
      rw [Function.update_same] at h2
      exact absurd h2 (by simp)
  · have hd1 : 2 * p + 1 ≠ u := by rcases hus with ⟨hu, _⟩ | ⟨hu, _⟩ <;> omega
    have hd2 : 2 * p + 2 ≠ u := by rcases hus with ⟨hu, _⟩ | ⟨hu, _⟩ <;> omega
    have hd3 : 2 * p + 1 ≠ s := by rcases hus with ⟨_, hs⟩ | ⟨_, hs⟩ <;> omega
    have hd4 : 2 * p + 2 ≠ s := by rcases hus with ⟨_, hs⟩ | ⟨_, hs⟩ <;> omega
    rw [Function.update_noteq hd3, Function.update_noteq hd1,
      Function.update_noteq hd4, Function.update_noteq hd2] at hp
    exact hinv p hp

/-- The one-step state change of the observation walk preserves the
invariant. -/
theorem updateStepState_SiblingInv {t : AlphaTree} {a n bs rd : Nat}
    (hinv : SiblingInv t.tree) :
    SiblingInv (updateStepState t a n bs rd).tree := by
  unfold updateStepState
  dsimp only
  set u := GetChild n (subsetID a bs) with hu_def
  set s := GetSibling u with hs_def
  have hus : (u = 2 * n + 1 ∧ s = 2 * n + 2) ∨
      (u = 2 * n + 2 ∧ s = 2 * n + 1) := by
    rcases child_sibling_cases n (subsetID a bs) with ⟨h1, h2⟩ | ⟨h1, h2⟩
    · exact Or.inl ⟨h1, by rw [hs_def, hu_def]; exact h2⟩
    · exact Or.inr ⟨h1, by rw [hs_def, hu_def]; exact h2⟩
  by_cases hcu : t.tree u = true
  · have hc1 : ¬¬((t.tree u || t.tree s) = true) := by simp [hcu]
    rw [if_neg hc1, if_pos hcu]
    exact hinv
  · have hcu2 : t.tree u = false := by
      simpa using hcu
    by_cases hcs : t.tree s = true
    · have hc1 : ¬¬((t.tree u || t.tree s) = true) := by simp [hcs]
      rw [if_neg hc1, if_neg hcu]
      exact SiblingInv_update_pair t.tree n u s hus hinv
    · have hcs2 : t.tree s = false := by
        simpa using hcs
      have hc1 : ¬((t.tree u || t.tree s) = true) := by simp [hcu2, hcs2]
      rw [if_pos hc1]
      refine SiblingInv_update_single t.tree n u ?_ ?_ ?_ hinv
      · rcases hus with ⟨hu2, _⟩ | ⟨hu2, _⟩
        · exact Or.inl hu2
        · exact Or.inr hu2
      · rcases hus with ⟨hu2, hs2⟩ | ⟨hu2, hs2⟩
        · rw [← hu2]; exact hcu2
        · rw [← hs2]; exact hcs2
      · rcases hus with ⟨hu2, hs2⟩ | ⟨hu2, hs2⟩
        · rw [← hs2]; exact hcs2
        · rw [← hu2]; exact hcu2

/-- `ProcessAccess` (via `updateTree`) preserves the sibling-mark
invariant. -/
theorem updateTree_SiblingInv (bs : Nat) :
    ∀ (t : AlphaTree) (a n rd : Nat), SiblingInv t.tree →
      SiblingInv (updateTree t a n bs rd).tree := by
  induction bs using Nat.strong_induction_on with
  | _ bs ih =>
    intro t a n rd hinv
    by_cases h : bs ≤ 4
    · rw [updateTree_base h]
      exact hinv
    · rw [updateTree_step h]
      have hlt : bs >>> 1 < bs := by
        simp only [Nat.shiftRight_one]; omega
      exact ih (bs >>> 1) hlt _ a _ rd (updateStepState_SiblingInv hinv)

theorem GetChild_mem (n s0 : Nat) :
    GetChild n s0 = 2 * n + 1 ∨ GetChild n s0 = 2 * n + 2 := by
  unfold GetChild
  split_ifs <;> omega

theorem SelectWord_base {t : AlphaTree} {n bs : Nat} {rd : Int}
    {rand : Nat → ℚ} {k : Nat} (h : bs ≤ 4) :
    SelectWord t n bs rd rand k = some (0, t) := by
  rw [SelectWord]
  simp [h]

theorem SelectWord_step {t : AlphaTree} {n bs : Nat} {rd : Int}
    {rand : Nat → ℚ} {k : Nat} (h : ¬ bs ≤ 4) :
    SelectWord t n bs rd rand k =
      (if ¬(t.tree (GetChild n 0) || t.tree (GetChild n 1)) then
        let subsetIdx : Nat := if rand k < 1 / 2 then 0 else 1
        let usedSubset := GetChild n subsetIdx
        let t1 := { t with tree := Function.update t.tree usedSubset true }
        (SelectWord t1 usedSubset (bs >>> 1) rd rand (k + 1)).map
          fun r => (r.1 ||| subsetIdx * (bs >>> 1), r.2)
      else
        match pyIdx rd t.bins with
        | none => none
        | some bin =>
          let p := t.reuseCount bin (GetTreeLevel bs)
          let reuse : Nat := if rand k < p.1 then 0 else 1
          let prevSubset := if t.tree (GetChild n 1) then GetChild n 1
            else GetChild n 0
          let prevIndex : Nat := if t.tree (GetChild n 1) then 1 else 0
          if reuse = 0 then
            let usedSubset := GetSibling prevSubset
            let t1 := { t with
              tree := Function.update (Function.update t.tree usedSubset true)
                prevSubset false }
            let subsetIdx := (prevIndex + 1) % 2
            (SelectWord t1 usedSubset (bs >>> 1) rd rand (k + 1)).map
              fun r => (r.1 ||| subsetIdx * (bs >>> 1), r.2)
          else
            (SelectWord t prevSubset (bs >>> 1) rd rand (k + 1)).map
              fun r => (r.1 ||| prevIndex * (bs >>> 1), r.2)) := by
  rw [SelectWord]
  simp [h]

/-- `GenerateAccess` (via `SelectWord`) preserves the sibling-mark
invariant. -/
theorem SelectWord_SiblingInv (bs : Nat) :
    ∀ (t : AlphaTree) (n : Nat) (rd : Int) (rand : Nat → ℚ) (k : Nat)
      (res : Nat × AlphaTree), SiblingInv t.tree →
      SelectWord t n bs rd rand k = some res → SiblingInv res.2.tree := by
  induction bs using Nat.strong_induction_on with
  | _ bs ih =>
    intro t n rd rand k res hinv hsel
    by_cases h : bs ≤ 4
    · rw [SelectWord_base h] at hsel
      cases hsel
      exact hinv
    · have hlt : bs >>> 1 < bs := by
        simp only [Nat.shiftRight_one]; omega
      rw [SelectWord_step h] at hsel
      by_cases hLR : ¬(t.tree (GetChild n 0) || t.tree (GetChild n 1)) = true
      · rw [if_pos hLR] at hsel
        dsimp only at hsel
        rw [Option.map_eq_some'] at hsel
        obtain ⟨r0, hrec, hres⟩ := hsel
        simp only [Bool.or_eq_true, not_or, Bool.not_eq_true] at hLR
        have hinv1 : SiblingInv (Function.update t.tree
            (GetChild n (if rand k < 1 / 2 then 0 else 1)) true) :=
          SiblingInv_update_single t.tree n _ (GetChild_mem n _)
            (by rw [← GetChild_zero n]; exact hLR.1)
            (by rw [← GetChild_one n]; exact hLR.2) hinv
        have := ih (bs >>> 1) hlt _ _ rd rand (k + 1) r0 hinv1 hrec
        rw [← hres]
        exact this
      · rw [if_neg hLR] at hsel
        cases hpy : pyIdx rd t.bins with
        | none =>
          rw [hpy] at hsel
          simp at hsel
        | some bin =>
          rw [hpy] at hsel
          dsimp only at hsel
          by_cases hreuse : (if rand k <
              (t.reuseCount bin (GetTreeLevel bs)).1 then (0 : Nat) else 1)
              = 0
          · rw [if_pos hreuse] at hsel
            rw [Option.map_eq_some'] at hsel
            obtain ⟨r0, hrec, hres⟩ := hsel
            have hus : (GetSibling (if t.tree (GetChild n 1) then
                  GetChild n 1 else GetChild n 0) = 2 * n + 1 ∧
                (if t.tree (GetChild n 1) then GetChild n 1
                  else GetChild n 0) = 2 * n + 2) ∨
                (GetSibling (if t.tree (GetChild n 1) then GetChild n 1
                  else GetChild n 0) = 2 * n + 2 ∧
                (if t.tree (GetChild n 1) then GetChild n 1
                  else GetChild n 0) = 2 * n + 1) := by
              by_cases hrc : t.tree (GetChild n 1) = true
              · rw [if_pos hrc, GetChild_one, GetSibling_right]
                exact Or.inl ⟨rfl, rfl⟩
              · rw [if_neg hrc, GetChild_zero, GetSibling_left]
                exact Or.inr ⟨rfl, rfl⟩
            have hinv1 := SiblingInv_update_pair t.tree n _ _ hus hinv
            have := ih (bs >>> 1) hlt _ _ rd rand (k + 1) r0 hinv1 hrec
            rw [← hres]
            exact this
          · rw [if_neg hreuse] at hsel
            rw [Option.map_eq_some'] at hsel
            obtain ⟨r0, hrec, hres⟩ := hsel
            have := ih (bs >>> 1) hlt _ _ rd rand (k + 1) r0 hinv hrec
            rw [← hres]
            exact this

/-- `SelectWord` depends on its bin-index argument only through the Python
index resolution against `bins`. -/
theorem SelectWord_bin_congr (bs : Nat) :
    ∀ (t : AlphaTree) (n : Nat) (rd1 rd2 : Int) (rand : Nat → ℚ) (k : Nat),
      pyIdx rd1 t.bins = pyIdx rd2 t.bins →
      SelectWord t n bs rd1 rand k = SelectWord t n bs rd2 rand k := by
  induction bs using Nat.strong_induction_on with
  | _ bs ih =>
    intro t n rd1 rd2 rand k hpy
    by_cases h : bs ≤ 4
    · rw [SelectWord_base h, SelectWord_base h]
    · have hlt : bs >>> 1 < bs := by
        simp only [Nat.shiftRight_one]; omega
      rw [SelectWord_step h, SelectWord_step h]
      by_cases hLR : ¬(t.tree (GetChild n 0) || t.tree (GetChild n 1)) = true
      · rw [if_pos hLR, if_pos hLR]
        dsimp only
        congr 1
        exact ih (bs >>> 1) hlt _ _ rd1 rd2 rand (k + 1) hpy
      · rw [if_neg hLR, if_neg hLR, hpy]
        cases hpy2 : pyIdx rd2 t.bins with
        | none => rfl
        | some bin =>
          dsimp only
          by_cases hreuse : (if rand k <
              (t.reuseCount bin (GetTreeLevel bs)).1 then (0 : Nat) else 1)
              = 0
          · rw [if_pos hreuse, if_pos hreuse]
            congr 1
            exact ih (bs >>> 1) hlt _ _ rd1 rd2 rand (k + 1) hpy
          · rw [if_neg hreuse, if_neg hreuse]
            congr 1
            exact ih (bs >>> 1) hlt _ _ rd1 rd2 rand (k + 1) hpy

/-- `SelectWord` succeeds whenever the bin index resolves against `bins`. -/
theorem SelectWord_isSome (bs : Nat) :
    ∀ (t : AlphaTree) (n : Nat) (rd : Int) (rand : Nat → ℚ) (k : Nat),
      (pyIdx rd t.bins).isSome = true →
      (SelectWord t n bs rd rand k).isSome = true := by
  induction bs using Nat.strong_induction_on with
  | _ bs ih =>
    intro t n rd rand k hpy
    by_cases h : bs ≤ 4
    · rw [SelectWord_base h]
      rfl
    · have hlt : bs >>> 1 < bs := by
        simp only [Nat.shiftRight_one]; omega
      rw [SelectWord_step h]
      by_cases hLR : ¬(t.tree (GetChild n 0) || t.tree (GetChild n 1)) = true
      · rw [if_pos hLR]
        dsimp only
        rw [Option.isSome_map']
        exact ih (bs >>> 1) hlt _ _ rd rand (k + 1) hpy
      · rw [if_neg hLR]
        cases hpy2 : pyIdx rd t.bins with
        | none => rw [hpy2] at hpy; cases hpy
        | some bin =>
          dsimp only
          by_cases hreuse : (if rand k <
              (t.reuseCount bin (GetTreeLevel bs)).1 then (0 : Nat) else 1)
              = 0
          · rw [if_pos hreuse, Option.isSome_map']
            exact ih (bs >>> 1) hlt _ _ rd rand (k + 1) hpy
          · rw [if_neg hreuse, Option.isSome_map']
            exact ih (bs >>> 1) hlt _ _ rd rand (k + 1) hpy

/-- Every record the generation loop emits carries, as `GenerateAccess`
argument, the sampled reuse distance minus one. -/
theorem genLoop_emitted_genArg (fuel : Nat) :
    ∀ (activity : Nat → Bool) (dists : Nat → Nat)
      (loadRand loadProp : Nat → ℚ) (traceLength wsSize : Nat)
      (st : GenState) (r : GenAccess),
      r ∈ (genLoop activity dists loadRand loadProp traceLength wsSize fuel
        st).emitted →
      r ∈ st.emitted ∨ r.genArg = (r.reuseDist : Int) - 1 := by
  induction fuel with
  | zero =>
    intro activity dists loadRand loadProp traceLength wsSize st r hr
    exact Or.inl hr
  | succ fuel ih =>
    intro activity dists loadRand loadProp traceLength wsSize st r hr
    rw [genLoop] at hr
    dsimp only at hr
    split at hr
    · exact Or.inl hr
    · split at hr
      · rcases ih _ _ _ _ _ _ _ _ hr with hin | hp
        · exact Or.inl hin
        · exact Or.inr hp
      · split at hr
        · split at hr
          · exact Or.inl hr
          · split at hr
            · exact Or.inl hr
            · rcases ih _ _ _ _ _ _ _ _ hr with hin | hp
              · dsimp only at hin
                rcases List.mem_append.mp hin with hin2 | hin2
                · exact Or.inl hin2
                · right
                  rw [List.mem_singleton] at hin2
                  subst hin2
                  rfl
              · exact Or.inr hp
        · split at hr
          · exact Or.inl hr
          · rcases ih _ _ _ _ _ _ _ _ hr with hin | hp
            · dsimp only at hin
              rcases List.mem_append.mp hin with hin2 | hin2
              · exact Or.inl hin2
              · right
                rw [List.mem_singleton] at hin2
                subst hin2
                rfl
            · exact Or.inr hp

/-- C9: in every `AlphaTree` satisfying the sibling-mark invariant (at most
one of the two children of any node marked used), both `ProcessAccess` and
`GenerateAccess` preserve the invariant. -/
theorem claim_C9_sibling_invariant_preserved (t : AlphaTree)
    (hinv : SiblingInv t.tree) :
    (∀ a rd, SiblingInv (ProcessAccess t a rd).tree) ∧
    (∀ (rd : Int) (rand : Nat → ℚ) (k : Nat) (res : Nat × AlphaTree),
      GenerateAccess t rd rand k = some res → SiblingInv res.2.tree) := by
  constructor
  · intro a rd
    exact updateTree_SiblingInv t.rootSize t a 0 _ hinv
  · intro rd rand k res hres
    exact SelectWord_SiblingInv t.rootSize t 0 _ rand k res hinv hres

/-- Witness for C9 on a freshly constructed default tree. -/
theorem claim_C9_witness :
    SiblingInv (freshAlphaTree 512 3).tree ∧
    ((∀ a rd, SiblingInv (ProcessAccess (freshAlphaTree 512 3) a rd).tree) ∧
    (∀ (rd : Int) (rand : Nat → ℚ) (k : Nat) (res : Nat × AlphaTree),
      GenerateAccess (freshAlphaTree 512 3) rd rand k = some res →
      SiblingInv res.2.tree)) :=
  have hfresh : SiblingInv (freshAlphaTree 512 3).tree := by
    intro n hn
    exact absurd hn.1 (by simp [freshAlphaTree])
  ⟨hfresh, claim_C9_sibling_invariant_preserved (freshAlphaTree 512 3) hfresh⟩

/-- C10: `GenerateAccess` clamps its bin argument only from above: called
with `-1` (which the generation loop does on every compulsory miss, passing
the sampled distance minus one) it does not fail, and via Python negative
indexing it draws from the last bin, behaving exactly as if called with
`bins - 1`. -/
theorem claim_C10_generate_access_negative_bin (t : AlphaTree)
    (rand : Nat → ℚ) (k : Nat) (activity : Nat → Bool) (dists : Nat → Nat)
    (loadRand loadProp : Nat → ℚ) (traceLength wsSize fuel : Nat)
    (st : GenState) (r : GenAccess) (hbins : 1 ≤ t.bins)
    (hr : r ∈ (genLoop activity dists loadRand loadProp traceLength wsSize
      fuel st).emitted) :
    pyIdx (-1) t.bins = some (t.bins - 1) ∧
    GenerateAccess t (-1) rand k = SelectWord t 0 t.rootSize (-1) rand k ∧
    GenerateAccess t (-1) rand k =
      GenerateAccess t ((t.bins : Int) - 1) rand k ∧
    (GenerateAccess t (-1) rand k).isSome = true ∧
    (r ∈ st.emitted ∨ r.genArg = (r.reuseDist : Int) - 1) := by
  have hnoclamp : ¬((-1 : Int) > (t.bins : Int) - 1) := by omega
  have hpyneg : pyIdx (-1) t.bins = some (t.bins - 1) := by
    unfold pyIdx
    rw [if_neg (by omega), if_pos (by constructor <;> omega)]
    congr 1
    omega
  have hpypos : pyIdx ((t.bins : Int) - 1) t.bins = some (t.bins - 1) := by
    unfold pyIdx
    rw [if_pos (by constructor <;> omega)]
    congr 1
    omega
  have hGA : GenerateAccess t (-1) rand k =
      SelectWord t 0 t.rootSize (-1) rand k := by
    unfold GenerateAccess
    rw [if_neg hnoclamp]
  refine ⟨hpyneg, hGA, ?_, ?_, ?_⟩
  · rw [hGA]
    unfold GenerateAccess
    rw [if_neg (by omega)]
    exact SelectWord_bin_congr t.rootSize t 0 (-1) ((t.bins : Int) - 1) rand
      k (hpyneg.trans hpypos.symm)
  · rw [hGA]
    apply SelectWord_isSome
    rw [hpyneg]
    rfl
  · exact genLoop_emitted_genArg fuel activity dists loadRand loadProp
      traceLength wsSize st r hr

/-- Witness for C10: the default tree with 3 bins, constant random streams,
and the first record emitted by a concrete generation run. -/
theorem claim_C10_witness :
    (1 ≤ (freshAlphaTree 512 3).bins ∧
      (⟨0, 0, 5, 0, -1⟩ : GenAccess) ∈
        (genLoop (fun _ => true) (fun _ => 0) (fun _ => 0) (fun _ => 1) 2 1 5
          (initGenState [5])).emitted) ∧
    (pyIdx (-1) (freshAlphaTree 512 3).bins =
      some ((freshAlphaTree 512 3).bins - 1) ∧
    GenerateAccess (freshAlphaTree 512 3) (-1) (fun _ => 0) 0 =
      SelectWord (freshAlphaTree 512 3) 0 (freshAlphaTree 512 3).rootSize
        (-1) (fun _ => 0) 0 ∧
    GenerateAccess (freshAlphaTree 512 3) (-1) (fun _ => 0) 0 =
      GenerateAccess (freshAlphaTree 512 3)
        (((freshAlphaTree 512 3).bins : Int) - 1) (fun _ => 0) 0 ∧
    (GenerateAccess (freshAlphaTree 512 3) (-1) (fun _ => 0) 0).isSome =
      true ∧
    ((⟨0, 0, 5, 0, -1⟩ : GenAccess) ∈ (initGenState [5]).emitted ∨
      (⟨0, 0, 5, 0, -1⟩ : GenAccess).genArg =
        ((⟨0, 0, 5, 0, -1⟩ : GenAccess).reuseDist : Int) - 1)) :=
  ⟨⟨by decide, by decide⟩,
    claim_C10_generate_access_negative_bin (freshAlphaTree 512 3)
      (fun _ => 0) 0 (fun _ => true) (fun _ => 0) (fun _ => 0) (fun _ => 1)
      2 1 5 (initGenState [5]) ⟨0, 0, 5, 0, -1⟩ (by decide) (by decide)⟩

/-- C2 (evaluation at the claimed failing input): with a one-block working
set and two sampled compulsory misses, the generation loop emits an access
both times (to the same block) and finishes normally — the capacity guard
does not fire, because `uniqueAddrs` is never incremented on a compulsory
miss. -/
theorem claim_C2_second_compulsory_miss_not_fatal :
    genLoop (fun _ => true) (fun _ => 0) (fun _ => 0) (fun _ => 1) 2 1 5
        (initGenState [5]) =
      GenOutcome.finished ⟨[5], 0, 1, 1, 2, 2, 2,
        [⟨0, 0, 5, 0, -1⟩, ⟨1, 0, 5, 0, -1⟩]⟩ ∧
    (genLoop (fun _ => true) (fun _ => 0) (fun _ => 0) (fun _ => 1) 2 1 5
        (initGenState [5])).isCapacityExit = false ∧
    (genLoop (fun _ => true) (fun _ => 0) (fun _ => 0) (fun _ => 1) 2 1 5
        (initGenState [5])).emitted.length = 2 := by
  decide

/-- C4 (evaluation at the claimed failing input): with working set `[5, 9]`
and two sampled compulsory misses, the second miss re-selects block `5`
(already referenced) instead of the unused member `9`, and the
introduced-address counter stays `0` instead of rising by one per miss. -/
theorem claim_C4_compulsory_miss_reuses_block :
    genLoop (fun _ => true) (fun _ => 0) (fun _ => 0) (fun _ => 1) 2 2 5
        (initGenState [5, 9]) =
      GenOutcome.finished ⟨[5, 9], 0, 1, 1, 2, 2, 2,
        [⟨0, 0, 5, 0, -1⟩, ⟨1, 0, 5, 0, -1⟩]⟩ ∧
    (genLoop (fun _ => true) (fun _ => 0) (fun _ => 0) (fun _ => 1) 2 2 5
        (initGenState [5, 9])).emitted.map GenAccess.block = [5, 5] := by
  decide

/-- C5 (evaluation at the claimed failing input): `wsSize` is never updated
by the loop of `BuildWorkingSet`, so of the working sets `[1, 2]` and `[3]`
it returns the *last* non-empty one, `[3]`, although `[1, 2]` is strictly
larger. -/
theorem claim_C5_build_working_set_returns_last :
    BuildWorkingSet [[1, 2], [3]] = some [3] ∧
    [(1 : Nat), 2].length > [(3 : Nat)].length := by
  decide

/-- C7 (evaluation at the claimed failing input): block size 12 is not a
power of two, yet both the `AlphaTree` constructor and the profiler accept
it — the check `rootSize % 2 or rootSize < 8` only rejects odd sizes. -/
theorem claim_C7_non_power_of_two_accepted :
    (AlphaTree.mk? 12 3).isSome = true ∧
    profilerBlockSizeRejected 12 = false ∧
    ¬ ∃ j : Nat, 12 = 2 ^ j := by
  refine ⟨by decide, by decide, ?_⟩
  rintro ⟨j, hj⟩
  rcases Nat.lt_or_ge j 4 with hlt | hge
  · interval_cases j <;> norm_num at hj
  · have h16 : (16 : Nat) ≤ 2 ^ j := by
      calc (16 : Nat) = 2 ^ 4 := by norm_num
      _ ≤ 2 ^ j := Nat.pow_le_pow_right (by norm_num) hge
    omega

/-- The inactive→active cell of the transition-count matrix equals the
number of inactive→active transitions in the trace (with the implicit
initial state inactive). -/
theorem activityCounts_go (trace : List Bool) :
    ∀ (m : Nat → Nat → ℚ) (c : Nat) (prev : Nat),
      ((trace.foldl (fun acc active =>
        if active then (mUpd acc.1 acc.2 1 (acc.1 acc.2 1 + 1), 1)
        else (mUpd acc.1 acc.2 0 (acc.1 acc.2 0 + 1), 0)) (m, prev)).1) 0 1
      = m 0 1 +
        ((trace.foldl (fun acc active =>
          if active then (if acc.2 = 0 then acc.1 + 1 else acc.1, 1)
          else (acc.1, 0)) (c, prev)).1 : ℚ) - (c : ℚ) := by
  induction trace with
  | nil =>
    intro m c prev
    simp
  | cons a rest ih =>
    intro m c prev
    cases a
    · simp only [List.foldl_cons, if_neg (by simp : ¬(false = true))]
      rw [ih (mUpd m prev 0 (m prev 0 + 1)) c 0]
      have hm : mUpd m prev 0 (m prev 0 + 1) 0 1 = m 0 1 := by
        unfold mUpd
        rw [if_neg (by rintro ⟨_, hx⟩; exact one_ne_zero hx)]
      rw [hm]
    · simp only [List.foldl_cons, eq_self_iff_true, if_true]
      rw [ih (mUpd m prev 1 (m prev 1 + 1)) (if prev = 0 then c + 1 else c)
        1]
      by_cases hp : prev = 0
      · subst hp
        have hm : mUpd m 0 1 (m 0 1 + 1) 0 1 = m 0 1 + 1 := by
          unfold mUpd
          rw [if_pos ⟨rfl, rfl⟩]
        rw [hm, if_pos rfl]
        push_cast
        ring
      · have hm : mUpd m prev 1 (m prev 1 + 1) 0 1 = m 0 1 := by
          unfold mUpd
          rw [if_neg (by rintro ⟨hx, _⟩; exact hp hx.symm)]
        rw [hm, if_neg hp]

theorem activityCounts_inactive_active (trace : List Bool) :
    (activityCounts trace).1 0 1 = (countInactiveToActive trace : ℚ) := by
  unfold activityCounts countInactiveToActive
  rw [activityCounts_go trace (fun _ _ => 0) 0 0]
  simp

/-- C3 counterexample: on the trace inactive–active–inactive–active the
first-cycle correction of the code subtracts `2` (the inactive→active count)
from the inactive→inactive cell, not exactly `1`, and the resulting
normalized row 0 differs from the row the subtract-one correction of the
claim would produce. -/
theorem claim_C3_counterexample_subtracts_two :
    (activityCounts [false, true, false, true]).1 0 0 -
      firstCycleCorrection (activityCounts [false, true, false, true]).1 0 0
      = 2 ∧
    profileActivityMatrix [false, true, false, true] 0 0 = -(1 / 3) ∧
    profileActivityMatrix [false, true, false, true] 0 1 = 2 / 3 ∧
    normalizeRows (subtractOneCorrection
      (activityCounts [false, true, false, true]).1) 0 0 = 0 ∧
    normalizeRows (subtractOneCorrection
      (activityCounts [false, true, false, true]).1) 0 1 = 1 := by
  refine ⟨?_, ?_, ?_, ?_, ?_⟩ <;>
    norm_num [profileActivityMatrix, activityCounts, firstCycleCorrection,
      subtractOneCorrection, normalizeRows, mUpd]

/-- C3 (amended): before row normalization the characterizer subtracts the
inactive→active transition count (not always exactly one) from the
inactive→inactive cell, leaving every other cell unchanged; on the minimal
trace of two inactive cycles followed by one access that count is one and
row 0 of the normalized matrix is `[0.5, 0.5]`. -/
theorem claim_C3_first_cycle_correction :
    (∀ trace : List Bool,
      firstCycleCorrection (activityCounts trace).1 0 0 =
        (activityCounts trace).1 0 0 - (countInactiveToActive trace : ℚ) ∧
      ∀ i j, ¬(i = 0 ∧ j = 0) →
        firstCycleCorrection (activityCounts trace).1 i j =
          (activityCounts trace).1 i j) ∧
    profileActivityMatrix [false, false, true] 0 0 = 1 / 2 ∧
    profileActivityMatrix [false, false, true] 0 1 = 1 / 2 := by
  refine ⟨fun trace => ⟨?_, ?_⟩, ?_, ?_⟩
  case refine_3 =>
    norm_num [profileActivityMatrix, activityCounts, firstCycleCorrection,
      normalizeRows, mUpd]
  case refine_4 =>
    norm_num [profileActivityMatrix, activityCounts, firstCycleCorrection,
      normalizeRows, mUpd]
  · unfold firstCycleCorrection mUpd
    rw [if_pos ⟨rfl, rfl⟩, activityCounts_inactive_active]
  · intro i j hij
    unfold firstCycleCorrection mUpd
    rw [if_neg hij]

/-- C6: after `NormalizeReuseCount`, an in-range counter pair that summed to
zero becomes `(0, 1)` (non-reuse 0.0, reuse 1.0), and any other pair is
divided componentwise by its sum, so it sums to 1. -/
theorem claim_C6_normalize_reuse_count (t : AlphaTree) (b h : Nat)
    (hb : b < t.bins) (hh : h < t.height)
    (h0 : 0 ≤ (t.reuseCount b h).1) (h1 : 0 ≤ (t.reuseCount b h).2) :
    ((t.reuseCount b h).1 + (t.reuseCount b h).2 = 0 →
      (NormalizeReuseCount t).reuseCount b h = (0, 1)) ∧
    ((t.reuseCount b h).1 + (t.reuseCount b h).2 ≠ 0 →
      (NormalizeReuseCount t).reuseCount b h =
        ((t.reuseCount b h).1 /
          ((t.reuseCount b h).1 + (t.reuseCount b h).2),
         (t.reuseCount b h).2 /
          ((t.reuseCount b h).1 + (t.reuseCount b h).2)) ∧
      ((NormalizeReuseCount t).reuseCount b h).1 +
        ((NormalizeReuseCount t).reuseCount b h).2 = 1) := by
  have hred : (NormalizeReuseCount t).reuseCount b h =
      if (t.reuseCount b h).1 + (t.reuseCount b h).2 = 0
      then ((t.reuseCount b h).1, 1)
      else ((t.reuseCount b h).1 /
              ((t.reuseCount b h).1 + (t.reuseCount b h).2),
            (t.reuseCount b h).2 /
              ((t.reuseCount b h).1 + (t.reuseCount b h).2)) := by
    unfold NormalizeReuseCount
    dsimp only
    rw [if_pos ⟨hb, hh⟩, abs_of_nonneg h0, abs_of_nonneg h1]
  constructor
  · intro hsum
    have h10 : (t.reuseCount b h).1 = 0 := by linarith
    rw [hred, if_pos hsum, h10]
  · intro hsum
    rw [hred, if_neg hsum]
    refine ⟨rfl, ?_⟩
    dsimp only
    rw [div_add_div_same, div_self hsum]

/-- Witness for C6 on a freshly constructed tree (all-zero counters) at
bin 0, level 0. -/
theorem claim_C6_witness :
    (0 < (freshAlphaTree 512 3).bins ∧ 0 < (freshAlphaTree 512 3).height ∧
      0 ≤ ((freshAlphaTree 512 3).reuseCount 0 0).1 ∧
      0 ≤ ((freshAlphaTree 512 3).reuseCount 0 0).2) ∧
    ((((freshAlphaTree 512 3).reuseCount 0 0).1 +
        ((freshAlphaTree 512 3).reuseCount 0 0).2 = 0 →
      (NormalizeReuseCount (freshAlphaTree 512 3)).reuseCount 0 0 =
        (0, 1)) ∧
    (((freshAlphaTree 512 3).reuseCount 0 0).1 +
        ((freshAlphaTree 512 3).reuseCount 0 0).2 ≠ 0 →
      (NormalizeReuseCount (freshAlphaTree 512 3)).reuseCount 0 0 =
        (((freshAlphaTree 512 3).reuseCount 0 0).1 /
          (((freshAlphaTree 512 3).reuseCount 0 0).1 +
            ((freshAlphaTree 512 3).reuseCount 0 0).2),
         ((freshAlphaTree 512 3).reuseCount 0 0).2 /
          (((freshAlphaTree 512 3).reuseCount 0 0).1 +
            ((freshAlphaTree 512 3).reuseCount 0 0).2)) ∧
      ((NormalizeReuseCount (freshAlphaTree 512 3)).reuseCount 0 0).1 +
        ((NormalizeReuseCount (freshAlphaTree 512 3)).reuseCount 0 0).2 =
        1)) :=
  ⟨⟨by decide, by norm_num [freshAlphaTree, Nat.log2], le_of_eq rfl,
      le_of_eq rfl⟩,
    claim_C6_normalize_reuse_count (freshAlphaTree 512 3) 0 0 (by decide)
      (by norm_num [freshAlphaTree, Nat.log2]) (le_of_eq rfl)
      (le_of_eq rfl)⟩

/-- C8 counterexample: with a single profile (`N = 1`) and the weight list
`[1, 1]` — whose length is neither 0 nor 1 — the validation raises no
error, because the length check is guarded by `numProfiles > 1`. -/
theorem claim_C8_counterexample_single_profile :
    weightsValidationError 1 [(1 : ℚ), 1] = false ∧
    ¬([(1 : ℚ), 1].length = 0 ∨ [(1 : ℚ), 1].length = 1) := by
  decide

/-- C8 (amended): the weight validation raises an error iff the profile
count exceeds one and the weight-list length is neither 0 nor that count,
or the weight list is non-empty and one of its first `numProfiles` entries
is negative. -/
theorem claim_C8_weight_validation (numProfiles : Nat) (w : List ℚ) :
    weightsValidationError numProfiles w = true ↔
      (1 < numProfiles ∧ w.length ≠ 0 ∧ w.length ≠ numProfiles) ∨
      (w.length ≠ 0 ∧ ∃ i < numProfiles, w.getD i 0 < 0) := by
  unfold weightsValidationError
  have hgiff : (decide (numProfiles > 1) &&
      !(w.length == 0 || w.length == numProfiles)) = true ↔
      (1 < numProfiles ∧ w.length ≠ 0 ∧ w.length ≠ numProfiles) := by
    simp [and_assoc]
  by_cases hg : 1 < numProfiles ∧ w.length ≠ 0 ∧ w.length ≠ numProfiles
  · rw [if_pos (hgiff.mpr hg)]
    constructor
    · intro _
      exact Or.inl hg
    · intro _
      rfl
  · rw [if_neg (fun hx => hg (hgiff.mp hx))]
    dsimp only
    by_cases hlen : w.length = 0
    · rw [if_pos (by simp [hlen])]
      constructor
      · intro hany
        exfalso
        rw [List.any_eq_true] at hany
        obtain ⟨i, hi, hneg⟩ := hany
        rw [List.mem_range] at hi
        rw [decide_eq_true_eq] at hneg
        have hval : (List.replicate numProfiles (1 : ℚ)).getD i 0 = 1 := by
          rw [List.getD_eq_getElem _ _ (by simpa using hi)]
          exact List.getElem_replicate ..
        rw [hval] at hneg
        norm_num at hneg
      · rintro (⟨_, hx, _⟩ | ⟨hx, _⟩) <;> exact absurd hlen hx
    · rw [if_neg (by simp [hlen])]
      rw [List.any_eq_true]
      constructor
      · rintro ⟨i, hi, hneg⟩
        rw [List.mem_range] at hi
        rw [decide_eq_true_eq] at hneg
        exact Or.inr ⟨hlen, i, hi, hneg⟩
      · rintro (⟨h1, h2, h3⟩ | ⟨_, i, hi, hneg⟩)
        · exact absurd ⟨h1, h2, h3⟩ hg
        · exact ⟨i, by rw [List.mem_range]; exact hi,
            by rw [decide_eq_true_eq]; exact hneg⟩

end MemTrace
